import Mathlib

/-!
Verification of the Hangman game state tracker (`hangman_game/hangman.py`).

The `Hangman` class is embedded as a structure; its interactive methods
become pure functions receiving the guessed letter as a parameter (the
source obtains it from `get_guess_word()`, which always returns a single
lowercase character). Strings are Lean `String`s; Python's `in` on a
string with a one-character needle is character membership of `.data`.
-/

set_option maxHeartbeats 1000000

/-- A session state, mirroring the attributes of the `Hangman` class:
`player_name`, `chosen_word`, `missed_letter`, `guessed_letter`. -/
structure Hangman where
  player_name : String
  chosen_word : String
  missed_letter : List Char
  guessed_letter : List Char
deriving DecidableEq

/-- A fresh session as built by `Hangman.__init__`: the interactively read
player name and the randomly chosen word are passed as parameters; both
guess lists start empty, exactly as in the constructor. -/
def Hangman.init (name word : String) : Hangman :=
  { player_name := name, chosen_word := word,
    missed_letter := [], guessed_letter := [] }

/-- Embedding of `Hangman.display_letters`: for each character of
`chosen_word`, show it if it is in `guessed_letter`, show a space if it is
a space, otherwise show an underscore; join the resulting one-character
strings with `' '.join`, i.e. intersperse a space. -/
def Hangman.display_letters (s : Hangman) : String :=
  let word_result : List Char :=
    s.chosen_word.data.map (fun char =>
      if char ∈ s.guessed_letter then char
      else if char = ' ' then ' '
      else '_')
  String.mk (List.intersperse ' ' word_result)

/-- Embedding of `Hangman.check_letters`, with the letter obtained from
`get_guess_word()` passed as the parameter `user_letter`. The `elif`
chain is kept verbatim, including the redundant conjuncts. -/
def Hangman.check_letters (s : Hangman) (user_letter : Char) : Hangman :=
  if user_letter ∈ s.guessed_letter ∨ user_letter ∈ s.missed_letter then
    s
  else if user_letter ∈ s.chosen_word.data ∧ user_letter ∉ s.guessed_letter then
    { s with guessed_letter := s.guessed_letter ++ [user_letter] }
  else if user_letter ∉ s.chosen_word.data ∧ user_letter ∉ s.missed_letter then
    { s with missed_letter := s.missed_letter ++ [user_letter] }
  else
    s

/-- Embedding of `Hangman.check_game_won`: true iff the rendered string
contains no underscore (`"_" not in self.display_letters()`). -/
def Hangman.check_game_won (s : Hangman) : Bool :=
  if '_' ∉ s.display_letters.data then true else false

/-- Embedding of `Hangman.end_of_game`: true iff the game is won or six
letters have been missed. -/
def Hangman.end_of_game (s : Hangman) : Bool :=
  if s.check_game_won = true ∨ s.missed_letter.length = 6 then true else false

/-- A sequence of guesses applied in order by repeated calls of
`check_letters`, as the loop in `play_game` does. -/
def run_guesses (s : Hangman) (gs : List Char) : Hangman :=
  gs.foldl Hangman.check_letters s

/-- Embedding of Python's `str.lower`: lowercase every character. -/
def str_lower (g : String) : String :=
  String.mk (g.data.map Char.toLower)

/-- Embedding of Python's `str.isalpha`: nonempty and every character
alphabetic. -/
def str_isalpha (g : String) : Bool :=
  g.length != 0 && g.data.all Char.isAlpha

/-- The message printed by `get_guess_word` when the input length is not
one. -/
def msg_invalid_len : String := "\nNo blanks and only a single letter!"

/-- The message printed by `get_guess_word` when the input is a single
non-alphabetic character. -/
def msg_invalid_alpha : String := "\nOnly alphabetic characters are allowed!"

/-- Embedding of `get_guess_word` over a finite sequence of input lines:
returns the list of error messages printed, and the accepted (lowercased)
letter if some line was accepted before the input ran out. -/
def get_guess_word : List String → List String × Option String
  | [] => ([], none)
  | line :: rest =>
    let guess_letter := str_lower line
    if guess_letter.length ≠ 1 then
      let r := get_guess_word rest
      (msg_invalid_len :: r.1, r.2)
    else if !str_isalpha guess_letter then
      let r := get_guess_word rest
      (msg_invalid_alpha :: r.1, r.2)
    else
      ([], some guess_letter)

example :
    (run_guesses (Hangman.init "p" "cat") ['c', 'a']).display_letters = "c a _" := by
  decide

example :
    (run_guesses (Hangman.init "p" "cat") ['c', 'a', 't']).check_game_won = true := by
  decide

example :
    (run_guesses (Hangman.init "p" "dog") ['q', 'w', 'e', 'r', 't', 'y']).end_of_game
      = true := by
  decide

example :
    get_guess_word ["ab", "!", "Z"] = ([msg_invalid_len, msg_invalid_alpha], some "z") := by
  decide

/-- Membership is preserved when a separator is interspersed. -/
theorem mem_intersperse_of_mem {α : Type} (sep : α) :
    ∀ (l : List α) (x : α), x ∈ l → x ∈ List.intersperse sep l
  | [], _, h => by simp at h
  | [a], x, h => by rwa [List.intersperse_singleton]
  | a :: b :: t, x, h => by
    rw [List.intersperse_cons_cons]
    rcases List.mem_cons.mp h with rfl | h2
    · exact List.mem_cons_self _ _
    · exact List.mem_cons_of_mem _
        (List.mem_cons_of_mem _ (mem_intersperse_of_mem sep (b :: t) x h2))

/-- A member of an interspersed list is a member of the original list or is
the separator. -/
theorem mem_of_mem_intersperse {α : Type} (sep : α) :
    ∀ (l : List α) (x : α), x ∈ List.intersperse sep l → x ∈ l ∨ x = sep
  | [], _, h => by simp [List.intersperse] at h
  | [a], x, h => by rw [List.intersperse_singleton] at h; exact Or.inl h
  | a :: b :: t, x, h => by
    rw [List.intersperse_cons_cons] at h
    rcases List.mem_cons.mp h with rfl | h2
    · exact Or.inl (List.mem_cons_self _ _)
    · rcases List.mem_cons.mp h2 with rfl | h3
      · exact Or.inr rfl
      · rcases mem_of_mem_intersperse sep (b :: t) x h3 with h4 | h4
        · exact Or.inl (List.mem_cons_of_mem _ h4)
        · exact Or.inr h4

/-- C1: for every session state and every guessed letter (a single lowercase
alphabetic character) not already in `guessed_letter` or `missed_letter`,
`check_letters` appends the letter to `guessed_letter` if it occurs in
`chosen_word` and otherwise appends it to `missed_letter`, leaving every
other field of the state unchanged. -/
theorem check_letters_fresh_letter (s : Hangman) (c : Char)
    (hAlpha : c.isAlpha = true ∧ c.isLower = true)
    (h1 : c ∉ s.guessed_letter) (h2 : c ∉ s.missed_letter) :
    (c ∈ s.chosen_word.data →
      s.check_letters c = { s with guessed_letter := s.guessed_letter ++ [c] }) ∧
    (c ∉ s.chosen_word.data →
      s.check_letters c = { s with missed_letter := s.missed_letter ++ [c] }) := by
  constructor <;> intro hw <;> simp [Hangman.check_letters, h1, h2, hw]

/-- Witness for C1 at a concrete state: guessing 'a' with secret word "cat"
is recorded as a hit, guessing 'z' as a miss. -/
theorem check_letters_fresh_letter_witness :
    (Hangman.init "p" "cat").check_letters 'a'
        = { Hangman.init "p" "cat" with guessed_letter := [] ++ ['a'] } ∧
    (Hangman.init "p" "cat").check_letters 'z'
        = { Hangman.init "p" "cat" with missed_letter := [] ++ ['z'] } :=
  ⟨(check_letters_fresh_letter (Hangman.init "p" "cat") 'a'
      (by decide) (by decide) (by decide)).1 (by decide),
   (check_letters_fresh_letter (Hangman.init "p" "cat") 'z'
      (by decide) (by decide) (by decide)).2 (by decide)⟩

/-- C5: for every session state and every letter already in `guessed_letter`
or `missed_letter`, `check_letters` leaves the session state (hence both
lists and their lengths) unchanged. -/
theorem check_letters_already_guessed (s : Hangman) (c : Char)
    (h : c ∈ s.guessed_letter ∨ c ∈ s.missed_letter) :
    s.check_letters c = s := by
  simp [Hangman.check_letters, h]

/-- Witness for C5 at a concrete state: re-guessing the hit 'a' and the miss
'z' both leave the state unchanged. -/
theorem check_letters_already_guessed_witness :
    Hangman.check_letters ⟨"p", "cat", ['z'], ['a']⟩ 'a' = ⟨"p", "cat", ['z'], ['a']⟩ ∧
    Hangman.check_letters ⟨"p", "cat", ['z'], ['a']⟩ 'z' = ⟨"p", "cat", ['z'], ['a']⟩ :=
  ⟨check_letters_already_guessed _ 'a' (by decide),
   check_letters_already_guessed _ 'z' (by decide)⟩

/-- C3: `end_of_game` returns true iff `check_game_won` is true or exactly
six letters have been missed (the spec's `isWon() OR isLost()` with
`maxMisses = 6`). -/
theorem end_of_game_iff (s : Hangman) :
    s.end_of_game = true ↔ (s.check_game_won = true ∨ s.missed_letter.length = 6) := by
  simp [Hangman.end_of_game]

/-- C4: `display_letters` is the space-joined string in which each character
of `chosen_word` is shown revealed when it is a space or a guessed hit and
as '_' otherwise; moreover every character of the rendered string is a
space, the placeholder, or a letter of `guessed_letter`, so no non-space
letter outside `guessed_letter` is ever revealed. -/
theorem display_letters_masks (s : Hangman) :
    s.display_letters =
      String.mk (List.intersperse ' '
        (s.chosen_word.data.map
          (fun c => if c = ' ' ∨ c ∈ s.guessed_letter then c else '_'))) ∧
    ∀ c ∈ s.display_letters.data, c = ' ' ∨ c = '_' ∨ c ∈ s.guessed_letter := by
  constructor
  · have hmap : s.chosen_word.data.map (fun char =>
        if char ∈ s.guessed_letter then char
        else if char = ' ' then ' ' else '_')
        = s.chosen_word.data.map
            (fun c => if c = ' ' ∨ c ∈ s.guessed_letter then c else '_') := by
      apply List.map_congr_left
      intro a _
      by_cases hg : a ∈ s.guessed_letter <;> by_cases hs : a = ' ' <;> simp [hg, hs]
    exact congrArg (fun l => String.mk (List.intersperse ' ' l)) hmap
  · intro c hc
    have hd : s.display_letters.data
        = List.intersperse ' ' (s.chosen_word.data.map (fun char =>
            if char ∈ s.guessed_letter then char
            else if char = ' ' then ' ' else '_')) := rfl
    rw [hd] at hc
    rcases mem_of_mem_intersperse _ _ _ hc with h1 | h1
    · rcases List.mem_map.mp h1 with ⟨a, _, ha⟩
      by_cases hg : a ∈ s.guessed_letter
      · rw [if_pos hg] at ha
        exact Or.inr (Or.inr (ha ▸ hg))
      · by_cases hs : a = ' '
        · rw [if_neg hg, if_pos hs] at ha
          exact Or.inl ha.symm
        · rw [if_neg hg, if_neg hs] at ha
          exact Or.inr (Or.inl ha.symm)
    · exact Or.inl h1

/-- A restatement of `check_game_won` as absence of the placeholder from the
rendered string. -/
theorem check_game_won_eq_true_iff (s : Hangman) :
    s.check_game_won = true ↔ '_' ∉ s.display_letters.data := by
  unfold Hangman.check_game_won
  split <;> simp_all

/-- A characterization of winning shared by several results: when the secret
word consists of lowercase letters and spaces, the rendered string is free
of underscores exactly when every non-space character has been hit. -/
theorem won_iff_all_guessed (s : Hangman)
    (hw : ∀ c ∈ s.chosen_word.data, ('a' ≤ c ∧ c ≤ 'z') ∨ c = ' ') :
    s.check_game_won = true ↔
      ∀ c ∈ s.chosen_word.data, c ≠ ' ' → c ∈ s.guessed_letter := by
  have hd : s.display_letters.data
      = List.intersperse ' ' (s.chosen_word.data.map (fun char =>
          if char ∈ s.guessed_letter then char
          else if char = ' ' then ' ' else '_')) := rfl
  rw [check_game_won_eq_true_iff, hd]
  constructor
  · intro hnot c hc hcs
    by_contra hg
    exact hnot (mem_intersperse_of_mem _ _ _
      (List.mem_map.mpr ⟨c, hc, by rw [if_neg hg, if_neg hcs]⟩))
  · intro hall hmem
    rcases mem_of_mem_intersperse _ _ _ hmem with h1 | h1
    · rcases List.mem_map.mp h1 with ⟨a, ha, hfa⟩
      by_cases hg : a ∈ s.guessed_letter
      · rw [if_pos hg] at hfa
        rcases hw a ha with ⟨h2, _⟩ | h2
        · rw [hfa] at h2
          exact absurd h2 (by decide)
        · rw [h2] at hfa
          exact absurd hfa (by decide)
      · by_cases hs : a = ' '
        · rw [if_neg hg, if_pos hs] at hfa
          exact absurd hfa (by decide)
        · exact hg (hall a ha hs)
    · exact absurd h1 (by decide)

/-- C2: for every session state whose secret word consists of lowercase
letters and spaces (the data model's well-formedness condition on
`secretWord`), `check_game_won` returns true iff every non-space character
of `chosen_word` is in `guessed_letter`. -/
theorem check_game_won_iff (s : Hangman)
    (hw : ∀ c ∈ s.chosen_word.data, ('a' ≤ c ∧ c ≤ 'z') ∨ c = ' ') :
    s.check_game_won = true ↔
      ∀ c ∈ s.chosen_word.data, c ≠ ' ' → c ∈ s.guessed_letter :=
  won_iff_all_guessed s hw

/-- Witness for C2 at a concrete state: with secret word "cat" and all three
letters guessed, the game is won. -/
theorem check_game_won_iff_witness :
    Hangman.check_game_won ⟨"p", "cat", [], ['c', 'a', 't']⟩ = true :=
  (check_game_won_iff _ (by decide)).mpr (by decide)

/-- A case split of `check_letters`: the branch for a repeated guess, stated
separately for reuse. -/
theorem check_letters_of_old (s : Hangman) (c : Char)
    (h : c ∈ s.guessed_letter ∨ c ∈ s.missed_letter) :
    s.check_letters c = s := by
  simp [Hangman.check_letters, h]

/-- A case split of `check_letters`: a new letter occurring in the word is
appended to `guessed_letter`. -/
theorem check_letters_of_hit (s : Hangman) (c : Char)
    (h1 : c ∉ s.guessed_letter) (h2 : c ∉ s.missed_letter)
    (hw : c ∈ s.chosen_word.data) :
    s.check_letters c = { s with guessed_letter := s.guessed_letter ++ [c] } := by
  simp [Hangman.check_letters, h1, h2, hw]

/-- A case split of `check_letters`: a new letter absent from the word is
appended to `missed_letter`. -/
theorem check_letters_of_miss (s : Hangman) (c : Char)
    (h1 : c ∉ s.guessed_letter) (h2 : c ∉ s.missed_letter)
    (hw : c ∉ s.chosen_word.data) :
    s.check_letters c = { s with missed_letter := s.missed_letter ++ [c] } := by
  simp [Hangman.check_letters, h1, h2, hw]

/-- Every call of `check_letters` produces one of three results: the state
unchanged, one hit appended, or one miss appended. -/
theorem check_letters_cases (s : Hangman) (c : Char) :
    s.check_letters c = s ∨
    s.check_letters c = { s with guessed_letter := s.guessed_letter ++ [c] } ∨
    s.check_letters c = { s with missed_letter := s.missed_letter ++ [c] } := by
  by_cases h1 : c ∈ s.guessed_letter ∨ c ∈ s.missed_letter
  · exact Or.inl (check_letters_of_old s c h1)
  · push_neg at h1
    by_cases hw : c ∈ s.chosen_word.data
    · exact Or.inr (Or.inl (check_letters_of_hit s c h1.1 h1.2 hw))
    · exact Or.inr (Or.inr (check_letters_of_miss s c h1.1 h1.2 hw))

/-- Guess handling never changes the chosen word. -/
theorem check_letters_chosen_word (s : Hangman) (c : Char) :
    (s.check_letters c).chosen_word = s.chosen_word := by
  rcases check_letters_cases s c with h | h | h <;> rw [h]

/-- The basic well-formedness of a session state: hits occur in the word,
misses do not, and neither list repeats a letter. -/
def GoodState (s : Hangman) : Prop :=
  (∀ c ∈ s.guessed_letter, c ∈ s.chosen_word.data) ∧
  (∀ c ∈ s.missed_letter, c ∉ s.chosen_word.data) ∧
  s.guessed_letter.Nodup ∧ s.missed_letter.Nodup

/-- A fresh session is well-formed. -/
theorem goodState_init (name word : String) : GoodState (Hangman.init name word) := by
  refine ⟨?_, ?_, ?_, ?_⟩ <;> simp [Hangman.init]

/-- Well-formedness is preserved by a single guess. -/
theorem goodState_check_letters (s : Hangman) (c : Char) (h : GoodState s) :
    GoodState (s.check_letters c) := by
  obtain ⟨hg, hm, hgn, hmn⟩ := h
  by_cases h1 : c ∈ s.guessed_letter ∨ c ∈ s.missed_letter
  · rw [check_letters_of_old s c h1]; exact ⟨hg, hm, hgn, hmn⟩
  · push_neg at h1
    by_cases hw : c ∈ s.chosen_word.data
    · rw [check_letters_of_hit s c h1.1 h1.2 hw]
      refine ⟨?_, hm, ?_, hmn⟩
      · intro x hx
        rcases List.mem_append.mp hx with hx | hx
        · exact hg x hx
        · rw [List.mem_singleton.mp hx]; exact hw
      · simp [List.nodup_append, hgn, h1.1]
    · rw [check_letters_of_miss s c h1.1 h1.2 hw]
      refine ⟨hg, ?_, hgn, ?_⟩
      · intro x hx
        rcases List.mem_append.mp hx with hx | hx
        · exact hm x hx
        · rw [List.mem_singleton.mp hx]; exact hw
      · simp [List.nodup_append, hmn, h1.2]

/-- Unfolding `run_guesses` on the empty guess sequence. -/
theorem run_guesses_nil (s : Hangman) : run_guesses s [] = s := rfl

/-- Unfolding `run_guesses` on a first guess. -/
theorem run_guesses_cons (s : Hangman) (g : Char) (gs : List Char) :
    run_guesses s (g :: gs) = run_guesses (s.check_letters g) gs := rfl

/-- Running guesses never changes the chosen word. -/
theorem run_guesses_chosen_word (s : Hangman) (gs : List Char) :
    (run_guesses s gs).chosen_word = s.chosen_word := by
  induction gs generalizing s with
  | nil => rfl
  | cons g gs ih => rw [run_guesses_cons, ih, check_letters_chosen_word]

/-- Well-formedness is preserved by any guess sequence. -/
theorem goodState_run_guesses (s : Hangman) (gs : List Char) (h : GoodState s) :
    GoodState (run_guesses s gs) := by
  induction gs generalizing s with
  | nil => exact h
  | cons g gs ih => exact ih _ (goodState_check_letters s g h)

/-- Membership in `guessed_letter` after a guess sequence from a well-formed
state: a letter is a hit afterwards iff it was a hit before or it was
guessed and occurs in the word. -/
theorem run_guesses_mem_guessed (s : Hangman) (gs : List Char) (h : GoodState s)
    (x : Char) :
    x ∈ (run_guesses s gs).guessed_letter ↔
      x ∈ s.guessed_letter ∨ (x ∈ gs ∧ x ∈ s.chosen_word.data) := by
  induction gs generalizing s with
  | nil => simp [run_guesses_nil]
  | cons g gs ih =>
    rw [run_guesses_cons, ih _ (goodState_check_letters s g h),
      check_letters_chosen_word]
    by_cases h1 : g ∈ s.guessed_letter ∨ g ∈ s.missed_letter
    · rw [check_letters_of_old s g h1]
      constructor
      · rintro (hx | ⟨hx, hxw⟩)
        · exact Or.inl hx
        · exact Or.inr ⟨List.mem_cons_of_mem _ hx, hxw⟩
      · rintro (hx | ⟨hx, hxw⟩)
        · exact Or.inl hx
        · rcases List.mem_cons.mp hx with rfl | hx
          · rcases h1 with h1 | h1
            · exact Or.inl h1
            · exact absurd hxw (h.2.1 x h1)
          · exact Or.inr ⟨hx, hxw⟩
    · push_neg at h1
      by_cases hw : g ∈ s.chosen_word.data
      · rw [check_letters_of_hit s g h1.1 h1.2 hw]
        constructor
        · rintro (hx | ⟨hx, hxw⟩)
          · rcases List.mem_append.mp hx with hx | hx
            · exact Or.inl hx
            · rw [List.mem_singleton.mp hx]
              exact Or.inr ⟨List.mem_cons_self _ _, hw⟩
          · exact Or.inr ⟨List.mem_cons_of_mem _ hx, hxw⟩
        · rintro (hx | ⟨hx, hxw⟩)
          · exact Or.inl (List.mem_append.mpr (Or.inl hx))
          · rcases List.mem_cons.mp hx with rfl | hx
            · exact Or.inl (List.mem_append.mpr (Or.inr (List.mem_singleton.mpr rfl)))
            · exact Or.inr ⟨hx, hxw⟩
      · rw [check_letters_of_miss s g h1.1 h1.2 hw]
        constructor
        · rintro (hx | ⟨hx, hxw⟩)
          · exact Or.inl hx
          · exact Or.inr ⟨List.mem_cons_of_mem _ hx, hxw⟩
        · rintro (hx | ⟨hx, hxw⟩)
          · exact Or.inl hx
          · rcases List.mem_cons.mp hx with rfl | hx
            · exact absurd hxw hw
            · exact Or.inr ⟨hx, hxw⟩

/-- Membership in `missed_letter` after a guess sequence from a well-formed
state: a letter is a miss afterwards iff it was a miss before or it was
guessed and does not occur in the word. -/
theorem run_guesses_mem_missed (s : Hangman) (gs : List Char) (h : GoodState s)
    (x : Char) :
    x ∈ (run_guesses s gs).missed_letter ↔
      x ∈ s.missed_letter ∨ (x ∈ gs ∧ x ∉ s.chosen_word.data) := by
  induction gs generalizing s with
  | nil => simp [run_guesses_nil]
  | cons g gs ih =>
    rw [run_guesses_cons, ih _ (goodState_check_letters s g h),
      check_letters_chosen_word]
    by_cases h1 : g ∈ s.guessed_letter ∨ g ∈ s.missed_letter
    · rw [check_letters_of_old s g h1]
      constructor
      · rintro (hx | ⟨hx, hxw⟩)
        · exact Or.inl hx
        · exact Or.inr ⟨List.mem_cons_of_mem _ hx, hxw⟩
      · rintro (hx | ⟨hx, hxw⟩)
        · exact Or.inl hx
        · rcases List.mem_cons.mp hx with rfl | hx
          · rcases h1 with h1 | h1
            · exact absurd (h.1 x h1) hxw
            · exact Or.inl h1
          · exact Or.inr ⟨hx, hxw⟩
    · push_neg at h1
      by_cases hw : g ∈ s.chosen_word.data
      · rw [check_letters_of_hit s g h1.1 h1.2 hw]
        constructor
        · rintro (hx | ⟨hx, hxw⟩)
          · exact Or.inl hx
          · exact Or.inr ⟨List.mem_cons_of_mem _ hx, hxw⟩
        · rintro (hx | ⟨hx, hxw⟩)
          · exact Or.inl hx
          · rcases List.mem_cons.mp hx with rfl | hx
            · exact absurd hw hxw
            · exact Or.inr ⟨hx, hxw⟩
      · rw [check_letters_of_miss s g h1.1 h1.2 hw]
        constructor
        · rintro (hx | ⟨hx, hxw⟩)
          · rcases List.mem_append.mp hx with hx | hx
            · exact Or.inl hx
            · rw [List.mem_singleton.mp hx]
              exact Or.inr ⟨List.mem_cons_self _ _, hw⟩
          · exact Or.inr ⟨List.mem_cons_of_mem _ hx, hxw⟩
        · rintro (hx | ⟨hx, hxw⟩)
          · exact Or.inl (List.mem_append.mpr (Or.inl hx))
          · rcases List.mem_cons.mp hx with rfl | hx
            · exact Or.inl (List.mem_append.mpr (Or.inr (List.mem_singleton.mpr rfl)))
            · exact Or.inr ⟨hx, hxw⟩

/-- C6: disjointness is an invariant: starting from a fresh session, after
any sequence of `check_letters` operations no character is in both
`guessed_letter` and `missed_letter`; moreover every single call of
`check_letters` leaves at least one of the two lists unchanged, so each
guess adds a character to at most one of them. -/
theorem guessed_missed_disjoint (name word : String) (gs : List Char) :
    (run_guesses (Hangman.init name word) gs).guessed_letter.Disjoint
      (run_guesses (Hangman.init name word) gs).missed_letter ∧
    ∀ (s : Hangman) (c : Char),
      (s.check_letters c).guessed_letter = s.guessed_letter ∨
      (s.check_letters c).missed_letter = s.missed_letter := by
  constructor
  · intro a ha hm
    have hgood := goodState_run_guesses (Hangman.init name word) gs
      (goodState_init name word)
    exact hgood.2.1 a hm (hgood.1 a ha)
  · intro s c
    rcases check_letters_cases s c with h | h | h <;> rw [h]
    · exact Or.inl rfl
    · exact Or.inr rfl
    · exact Or.inl rfl

/-- C10: in every state reachable from a fresh session, `guessed_letter`
contains only characters of `chosen_word`, `missed_letter` only characters
not in `chosen_word`, neither list has duplicates, and hence their lengths
equal the number of distinct hit and miss guesses respectively. -/
theorem reachable_state_invariant (name word : String) (gs : List Char) :
    (∀ c ∈ (run_guesses (Hangman.init name word) gs).guessed_letter, c ∈ word.data) ∧
    (∀ c ∈ (run_guesses (Hangman.init name word) gs).missed_letter, c ∉ word.data) ∧
    (run_guesses (Hangman.init name word) gs).guessed_letter.Nodup ∧
    (run_guesses (Hangman.init name word) gs).missed_letter.Nodup ∧
    (run_guesses (Hangman.init name word) gs).guessed_letter.length
      = (gs.filter (fun c => decide (c ∈ word.data))).toFinset.card ∧
    (run_guesses (Hangman.init name word) gs).missed_letter.length
      = (gs.filter (fun c => decide (c ∉ word.data))).toFinset.card := by
  obtain ⟨hg, hm, hgn, hmn⟩ := goodState_run_guesses (Hangman.init name word) gs
    (goodState_init name word)
  have hcw : (run_guesses (Hangman.init name word) gs).chosen_word = word :=
    run_guesses_chosen_word _ _
  rw [hcw] at hg hm
  refine ⟨hg, hm, hgn, hmn, ?_, ?_⟩
  · rw [← List.toFinset_card_of_nodup hgn]
    congr 1
    ext x
    simp only [List.mem_toFinset, List.mem_filter, decide_eq_true_eq]
    rw [run_guesses_mem_guessed _ gs (goodState_init name word) x]
    simp [Hangman.init, and_comm]
  · rw [← List.toFinset_card_of_nodup hmn]
    congr 1
    ext x
    simp only [List.mem_toFinset, List.mem_filter, decide_eq_true_eq]
    rw [run_guesses_mem_missed _ gs (goodState_init name word) x]
    simp [Hangman.init, and_comm]

/-- Misses are unchanged by a sequence of guesses that all occur in the
chosen word. -/
theorem run_guesses_missed_unchanged (s : Hangman) (gs : List Char)
    (h : ∀ g ∈ gs, g ∈ s.chosen_word.data) :
    (run_guesses s gs).missed_letter = s.missed_letter := by
  induction gs generalizing s with
  | nil => rfl
  | cons g gs ih =>
    rw [run_guesses_cons]
    have hg := h g (List.mem_cons_self _ _)
    have hstep : (s.check_letters g).missed_letter = s.missed_letter := by
      by_cases h1 : g ∈ s.guessed_letter ∨ g ∈ s.missed_letter
      · rw [check_letters_of_old s g h1]
      · push_neg at h1
        rw [check_letters_of_hit s g h1.1 h1.2 hg]
    have hrest : ∀ g' ∈ gs, g' ∈ (s.check_letters g).chosen_word.data := by
      intro g' hg'
      rw [check_letters_chosen_word]
      exact h g' (List.mem_cons_of_mem _ hg')
    rw [ih _ hrest, hstep]

/-- C7: for every non-empty lowercase secret word and every sequence of
distinct guesses that all occur in the word and together cover every
non-space character, running the guesses from a fresh session wins the
game, while after every prefix of the sequence the loss condition
(six misses) is false. -/
theorem winning_sequence (name word : String) (gs : List Char)
    (hne : word ≠ "")
    (hlower : ∀ c ∈ word.data, ('a' ≤ c ∧ c ≤ 'z') ∨ c = ' ')
    (hnd : gs.Nodup)
    (hin : ∀ g ∈ gs, g ∈ word.data)
    (hcover : ∀ c ∈ word.data, c ≠ ' ' → c ∈ gs) :
    (run_guesses (Hangman.init name word) gs).check_game_won = true ∧
    ∀ gs1 gs2, gs = gs1 ++ gs2 →
      (run_guesses (Hangman.init name word) gs1).missed_letter.length ≠ 6 := by
  constructor
  · have hcw : (run_guesses (Hangman.init name word) gs).chosen_word = word :=
      run_guesses_chosen_word _ _
    have hw' : ∀ c ∈ (run_guesses (Hangman.init name word) gs).chosen_word.data,
        ('a' ≤ c ∧ c ≤ 'z') ∨ c = ' ' := by rw [hcw]; exact hlower
    refine (won_iff_all_guessed _ hw').mpr ?_
    intro c hc hcs
    rw [hcw] at hc
    refine (run_guesses_mem_guessed _ gs (goodState_init name word) c).mpr ?_
    exact Or.inr ⟨hcover c hc hcs, hc⟩
  · intro gs1 gs2 hsplit
    have h1 : ∀ g ∈ gs1, g ∈ word.data := by
      intro g hg
      exact hin g (hsplit ▸ List.mem_append.mpr (Or.inl hg))
    rw [run_guesses_missed_unchanged (Hangman.init name word) gs1 h1]
    simp [Hangman.init]

/-- Witness for C7 at a concrete instance: guessing 'c', 'a', 't' against
the secret word "cat" wins. -/
theorem winning_sequence_witness :
    (run_guesses (Hangman.init "p" "cat") ['c', 'a', 't']).check_game_won = true :=
  (winning_sequence "p" "cat" ['c', 'a', 't'] (by decide) (by decide) (by decide)
    (by decide) (by decide)).1

/-- Running a sequence of pairwise-distinct guesses that are all new and all
absent from the chosen word appends exactly that sequence to the misses. -/
theorem run_guesses_all_misses (s : Hangman) (gs : List Char)
    (hmiss : ∀ g ∈ gs, g ∉ s.chosen_word.data)
    (hhits : ∀ g ∈ gs, g ∉ s.guessed_letter)
    (hnd : gs.Nodup)
    (hnew : ∀ g ∈ gs, g ∉ s.missed_letter) :
    run_guesses s gs = { s with missed_letter := s.missed_letter ++ gs } := by
  induction gs generalizing s with
  | nil => simp [run_guesses_nil]
  | cons g gs ih =>
    obtain ⟨hgnot, hndtail⟩ := List.nodup_cons.mp hnd
    have h1 : g ∉ s.guessed_letter := hhits g (List.mem_cons_self _ _)
    have h2 : g ∉ s.missed_letter := hnew g (List.mem_cons_self _ _)
    have hw : g ∉ s.chosen_word.data := hmiss g (List.mem_cons_self _ _)
    rw [run_guesses_cons, check_letters_of_miss s g h1 h2 hw]
    have hmiss2 : ∀ g' ∈ gs, g' ∉ s.chosen_word.data :=
      fun g' hg' => hmiss g' (List.mem_cons_of_mem _ hg')
    have hhits2 : ∀ g' ∈ gs, g' ∉ s.guessed_letter :=
      fun g' hg' => hhits g' (List.mem_cons_of_mem _ hg')
    have hnew2 : ∀ g' ∈ gs, g' ∉ s.missed_letter ++ [g] := by
      intro g' hg'
      simp only [List.mem_append, List.mem_singleton]
      push_neg
      exact ⟨hnew g' (List.mem_cons_of_mem _ hg'), fun he => hgnot (he ▸ hg')⟩
    rw [ih { s with missed_letter := s.missed_letter ++ [g] } hmiss2 hhits2
      hndtail hnew2]
    simp [List.append_assoc]

/-- C8: for every secret word, recording six distinct letters none of which
occurs in the word from a fresh session brings `missed_letter` to size 6,
hence the loss condition and `end_of_game` hold; the hypotheses cover every
order of the six guesses. -/
theorem losing_sequence (name word : String) (gs : List Char)
    (hlen : gs.length = 6) (hnd : gs.Nodup)
    (hmiss : ∀ g ∈ gs, g ∉ word.data) :
    (run_guesses (Hangman.init name word) gs).missed_letter.length = 6 ∧
    (run_guesses (Hangman.init name word) gs).end_of_game = true := by
  have h := run_guesses_all_misses (Hangman.init name word) gs hmiss
    (by intro g hg; simp [Hangman.init]) hnd (by intro g hg; simp [Hangman.init])
  have hlen2 : (run_guesses (Hangman.init name word) gs).missed_letter.length = 6 := by
    rw [h]
    simpa [Hangman.init] using hlen
  exact ⟨hlen2, by simp [Hangman.end_of_game, hlen2]⟩

/-- Witness for C8 at a concrete instance: six wrong guesses against "dog"
lose the game. -/
theorem losing_sequence_witness :
    (run_guesses (Hangman.init "p" "dog")
        ['q', 'w', 'e', 'r', 't', 'y']).missed_letter.length = 6 :=
  (losing_sequence "p" "dog" ['q', 'w', 'e', 'r', 't', 'y']
    (by decide) (by decide) (by decide)).1

/-- C9: modeled over a sequence of input lines, the letter prompt returns
the first input that after lowercasing is exactly one alphabetic character,
and every earlier input is rejected with the length message when its
lowercased length is not 1 and with the alphabetic message otherwise. -/
theorem get_guess_word_first_valid (bad : List String) (v : String)
    (rest : List String)
    (hbad : ∀ b ∈ bad, ¬((str_lower b).length = 1 ∧ str_isalpha (str_lower b) = true))
    (hv : (str_lower v).length = 1 ∧ str_isalpha (str_lower v) = true) :
    get_guess_word (bad ++ v :: rest)
      = (bad.map (fun b =>
            if (str_lower b).length ≠ 1 then msg_invalid_len else msg_invalid_alpha),
         some (str_lower v)) := by
  induction bad with
  | nil =>
    simp only [List.nil_append, List.map_nil, get_guess_word]
    simp [hv.1, hv.2]
  | cons b bad ih =>
    have hb := hbad b (List.mem_cons_self _ _)
    have ih2 := ih (fun b' hb' => hbad b' (List.mem_cons_of_mem _ hb'))
    by_cases hlenb : (str_lower b).length = 1
    · have halpha : ¬(str_isalpha (str_lower b) = true) := fun ha => hb ⟨hlenb, ha⟩
      simp only [List.cons_append, get_guess_word, List.map_cons]
      simp [hlenb, halpha, ih2]
    · simp only [List.cons_append, get_guess_word, List.map_cons]
      simp [hlenb, ih2]

/-- Witness for C9 at a concrete input sequence: "ab" is rejected for its
length, "!" for not being alphabetic, and "Z" is accepted as "z". -/
theorem get_guess_word_first_valid_witness :
    get_guess_word ["ab", "!", "Z"]
      = ([msg_invalid_len, msg_invalid_alpha], some "z") := by
  have h := get_guess_word_first_valid ["ab", "!"] "Z" [] (by decide) (by decide)
  exact h.trans (by decide)
